import Mathlib

/-!
Verification of the glix module manager core against its natural-language
specification.  Go strings are modeled as lists of characters (every input
relevant to the claims is ASCII, where Go's byte-wise operations coincide
with character-wise operations on `List Char`).  Pure Go functions become
Lean functions; the BoltDB-backed store becomes explicit state passing over
association lists sorted by key; external processes (the Go toolchain, the
CLI discoverer) become oracle parameters.
-/

namespace Glix

/-- Convert a Lean string literal to the `List Char` model of a Go string. -/
def gs (s : String) : List Char := s.toList

/-! ## String helpers mirroring the Go standard library calls used by glix -/

/-- Model of `hasPre p s` is `strings.HasPrefix(s, p)` (the test done by `strings.CutPrefix`). -/
def hasPre : List Char → List Char → Bool
  | [], _ => true
  | _ :: _, [] => false
  | p :: ps, c :: cs => p = c && hasPre ps cs

/-- The remainder after cutting a leading pattern, as `strings.CutPrefix` returns it. -/
def dropPre (p s : List Char) : List Char := s.drop p.length

/-- Model of `strings.Contains(s, string(c))` for a one-character pattern. -/
def containsChar (s : List Char) (c : Char) : Bool := s.contains c

/-- Model of `strings.Contains(s, pat)`: does `pat` occur as a contiguous substring of `s`? -/
def hasSub (pat : List Char) : List Char → Bool
  | [] => hasPre pat []
  | c :: cs => hasPre pat (c :: cs) || hasSub pat cs

/-- The part of `s` after the first `':'`; `s` itself when there is none.
This is `strings.SplitN(s, ":", 2)[1]` in the branch where the split has
two parts (guaranteed by the caller's `strings.Contains(s, ":")` guard). -/
def afterFirstColon : List Char → List Char
  | [] => []
  | c :: cs => if c = ':' then cs else afterFirstColon cs

/-- Model of `strings.ReplaceAll(s, "\\", "/")`. -/
def backToFwd (s : List Char) : List Char :=
  s.map fun c => if c = '\\' then '/' else c

/-- Scanner for `removeAll`, structurally recursive on a fuel bound that
dominates the input length (skipping a matched pattern shortens the input by
at least one character, so `s.length` fuel always suffices). -/
def removeAllF (pat : List Char) : Nat → List Char → List Char
  | _, [] => []
  | 0, s => s
  | fuel + 1, c :: cs =>
    if pat.length = 0 then c :: cs
    else if hasPre pat (c :: cs) then removeAllF pat fuel (cs.drop (pat.length - 1))
    else c :: removeAllF pat fuel cs

/-- Model of `strings.ReplaceAll(s, pat, "")`: remove every non-overlapping
occurrence of `pat`, scanning left to right (a nonempty `pat` is assumed by
returning the input unchanged when `pat = []`, which never happens in glix). -/
def removeAll (pat s : List Char) : List Char := removeAllF pat s.length s

/-- Drop leading `'/'` characters (half of `strings.Trim(s, "/")`). -/
def dropLead : List Char → List Char
  | [] => []
  | c :: cs => if c = '/' then dropLead cs else c :: cs

/-- Drop trailing `'/'` characters. -/
def trimEnd (s : List Char) : List Char := (dropLead s.reverse).reverse

/-- Model of `strings.Trim(s, "/")`. -/
def trimSlash (s : List Char) : List Char := trimEnd (dropLead s)

/-- Model of `strings.Count(s, "/")` for the one-character pattern used by glix. -/
def countSlash (s : List Char) : Nat := s.countP (· = '/')

/-- Model of `s[:strings.LastIndex(s, "/")]` — `none` when `s` has no slash. -/
def cutAtLastSlash : List Char → Option (List Char)
  | [] => none
  | c :: cs =>
    match cutAtLastSlash cs with
    | some r => some (c :: r)
    | none => if c = '/' then some [] else none

/-! ## The path normalizer (`Module.normalizeModulePath`) -/

/-- The prefixes stripped by the normalizer, in source order. -/
def stripList : List (List Char) :=
  [gs ("https://"), gs ("http://"), gs ("git://"), gs ("ssh://"), gs ("git@"), gs ("ssh@"), gs ("www.")]

/-- The normalizer's first step: cut the first matching entry of `stripList`
(the Go loop breaks after the first successful `strings.CutPrefix`). -/
def cutFirstPre : List (List Char) → List Char → List Char
  | [], s => s
  | p :: ps, s => if hasPre p s then dropPre p s else cutFirstPre ps s

/-- The normalizer's second step: when both `':'` and `'@'` remain, keep the
part after the first `':'` and turn backslashes into slashes. -/
def collapseSshStyle (s1 : List Char) : List Char :=
  if containsChar s1 ':' && containsChar s1 '@' then backToFwd (afterFirstColon s1)
  else s1

/-- Model of `Module.normalizeModulePath`: strip the first known scheme or user marker,
collapse an ssh-style `host:path` when both `':'` and `'@'` remain, remove
every `".git"` occurrence, and trim surrounding slashes. -/
def normalizeModulePath (input : List Char) : List Char :=
  trimSlash (removeAll (gs (".git")) (collapseSshStyle (cutFirstPre stripList input)))

/-! ## Version choice (`Module.pickVersion`, used by `Module.FetchModuleInfo`) -/

/-- The `go list -m -versions -json` decode target (`ListResp`), restricted to
the two fields the resolver reads. -/
structure ListRespM where
  version : List Char
  versions : List (List Char)
deriving DecidableEq, Repr

/-- Model of `Module.pickVersion`: the head of `versions` when nonempty, else the
preferred token when nonempty, else the empty string. -/
def pickVersion (preferred : List Char) (versions : List (List Char)) : List Char :=
  match versions with
  | v :: _ => v
  | [] => if preferred ≠ [] then preferred else []

/-- The version choice made by `Module.FetchModuleInfo` (its lines
`if version == "latest" { version = lr.Version }` followed by
`m.Version = m.pickVersion(version, lr.Versions)`), given the user's version
token and the probe response. -/
def resolveVersion (token : List Char) (lr : ListRespM) : List Char :=
  let v := if token = gs ("latest") then lr.version else token
  pickVersion v lr.versions

/-! ## Version comparison (`autoupdate.isNewerVersion`) -/

/-- Prepend `'v'` when the string is nonempty and does not start with `'v'`
(the normalization both arguments of `isNewerVersion` undergo). -/
def vNorm : List Char → List Char
  | [] => []
  | c :: cs => if c ≠ 'v' then 'v' :: c :: cs else c :: cs

/-- Go's byte-wise string order `a < b` on the character-list model. -/
def goStrLt : List Char → List Char → Bool
  | [], [] => false
  | [], _ :: _ => true
  | _ :: _, [] => false
  | a :: as, b :: bs =>
    if a.toNat < b.toNat then true
    else if b.toNat < a.toNat then false
    else goStrLt as bs

/-- Model of `autoupdate.isNewerVersion`: normalize both with `vNorm`; equal strings are
not newer; otherwise compare byte-wise (`newVer > oldVer`). -/
def isNewerVersion (newVer oldVer : List Char) : Bool :=
  let n := vNorm newVer
  let o := vNorm oldVer
  if n = o then false else goStrLt o n

/-! ## A semantic comparator model, for refutation of the spec's version rule -/

/-- Fold a run of decimal digits into a number; `none` on a non-digit or an
empty run. -/
def decNum (s : List Char) : Option Nat :=
  if s = [] then none
  else s.foldl (fun acc c =>
    match acc with
    | none => none
    | some n => if '0' ≤ c ∧ c ≤ '9' then some (n * 10 + (c.toNat - '0'.toNat)) else none)
    (some 0)

/-- Split a list at every occurrence of a separator character. -/
def splitChar (sep : Char) : List Char → List (List Char)
  | [] => [[]]
  | c :: cs =>
    let r := splitChar sep cs
    if c = sep then [] :: r
    else
      match r with
      | [] => [[c]]
      | g :: gr => (c :: g) :: gr

/-- Modelled from the spec: the core of the ecosystem's semantic comparator
(the external `golang.org/x/mod/semver` library, which is not part of this
repository).  A canonical tagged release `v<major>.<minor>.<patch>` parses to
its numeric triple; anything else (pseudo-versions, pre-releases, malformed
strings) does not parse and is treated as semantically incomparable. -/
def parseSemverCore (s : List Char) : Option (Nat × Nat × Nat) :=
  match s with
  | 'v' :: rest =>
    match splitChar '.' rest with
    | [a, b, c] =>
      match decNum a, decNum b, decNum c with
      | some x, some y, some z => some (x, y, z)
      | _, _, _ => none
    | _ => none
  | _ => none

/-- Strict lexicographic order on numeric `(major, minor, patch)` triples. -/
def tripleLt (x y : Nat × Nat × Nat) : Bool :=
  x.1 < y.1 || (x.1 = y.1 && (x.2.1 < y.2.1 || (x.2.1 = y.2.1 && x.2.2 < y.2.2)))

/-- Modelled from the spec: the spec's version-order rule for "newer".
Normalize with `vNorm`; equal strings are equal; otherwise the semantic
comparator decides whenever both sides parse, and byte-wise comparison is the
fallback for semantically incomparable versions. -/
def specIsNewerVersion (newVer oldVer : List Char) : Bool :=
  let n := vNorm newVer
  let o := vNorm oldVer
  if n = o then false
  else
    match parseSemverCore n, parseSemverCore o with
    | some x, some y => tripleLt y x
    | _, _ => goStrLt o n

/-! ## The resolver's prefix walk (`Module.fetchModuleVersions`) -/

/-- Post-processing of one successful `go list` run: a nonempty `Versions`
list is kept (the source sorts it by the external semver comparator, which
does not change its members), an empty one falls back to the single reported
pseudo-version, and an empty response fails.  The external-command run and
JSON decode are the oracle `probe`. -/
def probeStep (probe : List Char → Option ListRespM) (module : List Char) :
    Option ListRespM :=
  match probe module with
  | none => none
  | some lr =>
    if lr.versions ≠ [] then some lr
    else if lr.version ≠ [] then some { lr with versions := [lr.version] }
    else none

/-- Result of the phase-1 loop of `fetchModuleVersions`: the successful
response and root module when a probe succeeded, the final (shortened) value
of `module` when the loop exited, and the number of probe invocations. -/
structure Phase1Out where
  found : Option (ListRespM × List Char)
  finalModule : List Char
  probes : Nat
deriving Repr

/-- The phase-1 loop of `Module.fetchModuleVersions`: probe `module`; on
failure drop the last `/`-segment and retry.  The loop stops when no slash
remains or `attempts >= maxAttempts` (`maxAttempts = 5`, counting segment
drops); here `fuel = maxAttempts - attempts` counts the remaining drops, so
`fuel = 0` is exactly the loop's `attempts >= maxAttempts` exit. -/
def phase1Walk (probe : List Char → Option ListRespM) :
    Nat → List Char → Phase1Out
  | fuel, module =>
    match probeStep probe module with
    | some lr => ⟨some (lr, module), module, 1⟩
    | none =>
      match cutAtLastSlash module with
      | none => ⟨none, module, 1⟩
      | some shorter =>
        match fuel with
        | 0 => ⟨none, module, 1⟩
        | fuel' + 1 =>
          let r := phase1Walk probe fuel' shorter
          ⟨r.found, r.finalModule, r.probes + 1⟩

/-- The phase-1 loop started at `attempts = 0`. -/
def phase1 (probe : List Char → Option ListRespM) (module : List Char) :
    Phase1Out :=
  phase1Walk probe 5 module

/-- The phase-2 gate of `fetchModuleVersions`: CLI discovery runs only when
the original path has at most 2 slashes or contains `/cmd/` or `/cli/`. -/
def phase2Gate (original : List Char) : Bool :=
  countSlash original ≤ 2 || hasSub (gs ("/cmd/")) original || hasSub (gs ("/cli/")) original

/-- The phase-2 branch of `fetchModuleVersions`: when the gate is open,
consult the `DiscoverCLIPaths` oracle on the original path (`none` models an
error or a not-found result), and on a first candidate retry the version
probe once; the returned root module is the walk's final (shortened) value. -/
def phase2Run (probe : List Char → Option ListRespM)
    (discover : List Char → Option (List (List Char)))
    (p : Phase1Out) (original : List Char) :
    Option (ListRespM × List Char) × Nat :=
  if phase2Gate original then
    match discover original with
    | none => (none, p.probes)
    | some discovered =>
      match discovered with
      | [] => (none, p.probes)
      | d :: _ =>
        match probeStep probe d with
        | none => (none, p.probes + 1)
        | some lr => (some (lr, p.finalModule), p.probes + 1)
  else (none, p.probes)

/-- Model of `Module.fetchModuleVersions`: the phase-1 prefix walk followed, on total
failure, by gated CLI discovery.  Returns the resolution outcome (response
plus root module) and the number of version probes run. -/
def fetchModuleVersions (probe : List Char → Option ListRespM)
    (discover : List Char → Option (List (List Char)))
    (original : List Char) : Option (ListRespM × List Char) × Nat :=
  match (phase1 probe original).found with
  | some r => (some r, (phase1 probe original).probes)
  | none => phase2Run probe discover (phase1 probe original) original

/-! ## The metadata store (`database.Storage` over BoltDB)

Buckets are modeled as association lists sorted strictly ascending by
byte-wise key order (BoltDB keeps keys in byte order); serialized protobuf
values are modeled by the records themselves. -/

/-- Model of `pb.DependencyProto`: recursive dependency record. -/
inductive DependencyProto where
  | mk (name version : List Char) (versions : List (List Char)) (hash : List Char)
      (dependencies : List DependencyProto)

/-- Model of `pb.ModuleProto`. -/
structure ModuleProto where
  name : List Char
  version : List Char
  versions : List (List Char)
  dependencies : List DependencyProto
  hash : List Char
  timestampUnixNano : Int

/-- Bucket lookup (`bucket.Get`). -/
def bget (k : List Char) : List (List Char × α) → Option α
  | [] => none
  | (k', v) :: rest => if k = k' then some v else bget k rest

/-- Bucket write (`bucket.Put`): insert or replace, keeping keys sorted. -/
def bput (k : List Char) (v : α) : List (List Char × α) → List (List Char × α)
  | [] => [(k, v)]
  | (k', v') :: rest =>
    if k = k' then (k, v) :: rest
    else if goStrLt k k' then (k, v) :: (k', v') :: rest
    else (k', v') :: bput k v rest

/-- Bucket delete (`bucket.Delete`): remove the key when present. -/
def bdel (k : List Char) : List (List Char × α) → List (List Char × α)
  | [] => []
  | (k', v') :: rest => if k = k' then rest else (k', v') :: bdel k rest

/-- The four buckets created by `Storage.initBuckets`. -/
structure StorageState where
  modules : List (List Char × ModuleProto)
  dependencies : List (List Char × List DependencyProto)
  timeIndex : List (List Char × List Char)
  nameIndex : List (List Char × List (List Char))

/-- The freshly initialized store. -/
def emptyStorage : StorageState := ⟨[], [], [], []⟩

/-- The composite modules-bucket key `fmt.Sprintf("%s@%s", name, version)`. -/
def compositeKey (name version : List Char) : List Char := name ++ '@' :: version

/-- The key of a module record. -/
def moduleKey (m : ModuleProto) : List Char := compositeKey m.name m.version

/-- Model of `fmt.Sprintf("%020d", timestamp)`: decimal, zero-padded to width 20
(the zero padding goes after the sign for negative values). -/
def pad20 (t : Int) : List Char :=
  if t ≥ 0 then
    let d := Nat.toDigits 10 t.toNat
    List.replicate (20 - d.length) '0' ++ d
  else
    let d := Nat.toDigits 10 (-t).toNat
    '-' :: (List.replicate (19 - d.length) '0' ++ d)

/-- Model of `Storage.updateTimeIndex`: write `timeIndex[pad20 t] = moduleKey`. -/
def updateTimeIndex (t : Int) (mkey : List Char)
    (idx : List (List Char × List Char)) : List (List Char × List Char) :=
  bput (pad20 t) mkey idx

/-- Model of `Storage.deleteFromTimeIndex`. -/
def deleteFromTimeIndex (t : Int) (idx : List (List Char × List Char)) :
    List (List Char × List Char) :=
  bdel (pad20 t) idx

/-- Model of `Storage.updateNameIndex`: append the version to the name's version list
when not already present. -/
def updateNameIndex (name version : List Char)
    (idx : List (List Char × List (List Char))) : List (List Char × List (List Char)) :=
  let current := (bget name idx).getD []
  let next := if current.contains version then current else current ++ [version]
  bput name next idx

/-- Model of `Storage.deleteFromNameIndex`: remove the version; drop the key when the
remaining list is empty. -/
def deleteFromNameIndex (name version : List Char)
    (idx : List (List Char × List (List Char))) : List (List Char × List (List Char)) :=
  match bget name idx with
  | none => idx
  | some current =>
    let next := current.filter (· ≠ version)
    if next = [] then bdel name idx else bput name next idx

/-- Model of `Storage.UpsertModule`: one transaction writing the modules bucket under
the composite `name@version` key, the time index, and the name index.  No
pre-existing record is read and no stale index entry is deleted. -/
def upsertModule (s : StorageState) (m : ModuleProto) : StorageState :=
  let key := moduleKey m
  { s with
    modules := bput key m s.modules
    timeIndex := updateTimeIndex m.timestampUnixNano key s.timeIndex
    nameIndex := updateNameIndex m.name m.version s.nameIndex }

/-- Model of `Storage.ListModules`: iterate the time index in descending key order,
resolve each referenced module key, and skip dangling references. -/
def listModulesStore (s : StorageState) : List ModuleProto :=
  s.timeIndex.reverse.filterMap fun e => bget e.2 s.modules

/-- Model of `Storage.DeleteModule`: read the record under `name@version` (error when
absent), then delete its modules entry, its timestamp's time-index entry, its
name-index version, and its dependencies record. -/
def deleteModule (s : StorageState) (name version : List Char) :
    Option StorageState :=
  match bget (compositeKey name version) s.modules with
  | none => none
  | some m =>
    some
      { modules := bdel (compositeKey name version) s.modules
        dependencies := bdel name s.dependencies
        timeIndex := deleteFromTimeIndex m.timestampUnixNano s.timeIndex
        nameIndex := deleteFromNameIndex name version s.nameIndex }

/-! ## The `ListModules` RPC handler (`Server.ListModules`) -/

/-- The ASCII case fold applied byte-wise by `server.equalIgnoreCase`:
`'A'..'Z'` gain `'a' - 'A'`; every other byte is untouched. -/
def lowerChar (c : Char) : Char :=
  if 'A' ≤ c ∧ c ≤ 'Z' then Char.ofNat (c.toNat + 32) else c

/-- Model of `server.equalIgnoreCase`: equal lengths and byte-wise equality after the
ASCII fold. -/
def equalIgnoreCase : List Char → List Char → Bool
  | [], [] => true
  | a :: as, b :: bs => lowerChar a = lowerChar b && equalIgnoreCase as bs
  | _, _ => false

/-- Model of `server.containsIgnoreCase`: some window of `s` of the filter's length is
`equalIgnoreCase`-equal to it. -/
def containsIgnoreCase (s substr : List Char) : Bool :=
  if substr.length ≤ s.length then
    equalIgnoreCase (s.take substr.length) substr ||
      match s with
      | [] => false
      | _ :: cs => containsIgnoreCase cs substr
  else false

/-- The name filter of `Server.ListModules`: applied only when nonempty. -/
def nameFilterPred (filterStr name : List Char) : Bool :=
  if filterStr ≠ [] then containsIgnoreCase name filterStr else true

/-- Model of `Server.ListModules` after the store read: filter by name, record the
filtered count as `totalCount`, then paginate (`offset` beyond the list yields
the empty page; a positive `limit` truncates).  The proto's integer fields are
modeled as naturals. -/
def listModulesHandler (mods : List ModuleProto) (limit offset : Nat)
    (filterStr : List Char) : List ModuleProto × Nat :=
  let filtered := mods.filter fun m => nameFilterPred filterStr m.name
  let totalCount := filtered.length
  let page :=
    if offset > filtered.length then []
    else
      let l2 := filtered.drop offset
      if limit > 0 ∧ limit < l2.length then l2.take limit else l2
  (page, totalCount)

/-! ## The auto-update sweep (`Scheduler.CheckAndUpdate` / `checkModule`) -/

/-- The environment one `checkModule` call runs against: the resolver outcome
(`none` models a workdir, module-construction, or `FetchModuleInfo` error;
`some v` the freshly resolved `m.Version`), and whether the install and the
store RPC succeed. -/
structure CheckEnv where
  resolve : Option (List Char)
  installOk : Bool
  storeOk : Bool

/-- Model of `autoupdate.UpdateResult`, with the error field reduced to its presence. -/
structure UpdateResult where
  name : List Char
  previousVersion : List Char
  newVersion : List Char
  updated : Bool
  errored : Bool

/-- Model of `Scheduler.checkModule`: resolve the module, stop when the resolved
version is not `isNewerVersion`-newer or when notify-only is set, otherwise
install and store; `updated` is set only after both succeed. -/
def checkModule (name installedVersion : List Char) (notifyOnly : Bool)
    (env : CheckEnv) : UpdateResult :=
  match env.resolve with
  | none => ⟨name, installedVersion, [], false, true⟩
  | some v =>
    if ¬ isNewerVersion v installedVersion then ⟨name, installedVersion, v, false, false⟩
    else if notifyOnly then ⟨name, installedVersion, v, false, false⟩
    else if ¬ env.installOk then ⟨name, installedVersion, v, false, true⟩
    else if ¬ env.storeOk then ⟨name, installedVersion, v, false, true⟩
    else ⟨name, installedVersion, v, true, false⟩

/-- Model of `autoupdate.CheckResult`, restricted to the counters the claims test. -/
structure CheckResult where
  modulesCount : Nat
  updatesFound : Nat
  updatesDone : Nat
  results : List UpdateResult

/-- The per-module accumulation step of `Scheduler.CheckAndUpdate`: a module
counts toward `UpdatesFound` when its check did not error and its new version
differs from its previous one, and toward `UpdatesDone` when it was updated. -/
def tallyResult (acc : CheckResult) (r : UpdateResult) : CheckResult :=
  { modulesCount := acc.modulesCount
    updatesFound :=
      acc.updatesFound +
        (if ¬ r.errored ∧ r.newVersion ≠ r.previousVersion then 1 else 0)
    updatesDone :=
      acc.updatesDone +
        (if (¬ r.errored ∧ r.newVersion ≠ r.previousVersion) ∧ r.updated then 1 else 0)
    results := acc.results ++ [r] }

/-- Model of `Scheduler.CheckAndUpdate` after a successful `ListModules` call: check
every installed `(name, version)` against its environment and tally. -/
def checkAndUpdate (installed : List ((List Char × List Char) × CheckEnv))
    (notifyOnly : Bool) : CheckResult :=
  installed.foldl
    (fun acc e => tallyResult acc (checkModule e.1.1 e.1.2 notifyOnly e.2))
    ⟨installed.length, 0, 0, []⟩

/-! ## The idle monitor (`Server.monitorIdle` / `Server.activityInterceptor`)

Time is modeled in seconds.  Every RPC stamps `last_activity` before dispatch
(`activityInterceptor` calls `touchActivity` first); the stamp times form a
list, and `last_activity` at time `t` is the latest stamp not after `t`
(with 0, the server start, as the base).  The monitor wakes at every multiple
of 30 seconds and stops the server when the idle span reaches the timeout. -/

/-- Model of `last_activity` as observed at time `t`, given the RPC stamp times. -/
def lastActAt (stamps : List Nat) (t : Nat) : Nat :=
  (stamps.filter (· ≤ t)).foldl max 0

/-- The wall-clock time of the monitor's `k`-th wake-up. -/
def tickTime (k : Nat) : Nat := 30 * k

/-- The monitor's stop condition at its `k`-th wake-up:
`time.Since(lastActivity) >= IdleTimeout`. -/
def idleFires (timeout : Nat) (stamps : List Nat) (k : Nat) : Bool :=
  timeout ≤ tickTime k - lastActAt stamps (tickTime k)

/-! ## Derived predicates used in the claim statements -/

/-- Stability test for a normalized path: no strippable marker in front, not
both `':'` and `'@'` present, and no `".git"` occurrence — the conditions
under which a second normalization pass can change nothing. -/
def normStable (s : List Char) : Bool :=
  stripList.all (fun p => ! hasPre p s) &&
    ! (containsChar s ':' && containsChar s '@') &&
    ! hasSub (gs (".git")) s

/-- When `CheckAndUpdate` counts a module toward `UpdatesFound`: resolution
succeeded, the resolved version differs from the installed one as a plain
string, and no install/store error occurred (errors can only arise after a
strictly newer version was seen with notify-only off). -/
def foundSpec (notifyOnly : Bool) (prev : List Char) (env : CheckEnv) : Bool :=
  match env.resolve with
  | none => false
  | some v =>
    decide (v ≠ prev) &&
      (!(isNewerVersion v prev) || notifyOnly || (env.installOk && env.storeOk))

/-- When `CheckAndUpdate` counts a module toward `UpdatesDone`: a strictly
newer version was resolved with notify-only off and both the install and the
store RPC succeeded. -/
def appliedSpec (notifyOnly : Bool) (prev : List Char) (env : CheckEnv) : Bool :=
  match env.resolve with
  | none => false
  | some v => isNewerVersion v prev && !notifyOnly && env.installOk && env.storeOk

/-! ## Concrete fixtures for evaluations and witnesses -/

/-- A module record, version `v1.0.0` of `github.com/test/module`. -/
def modA : ModuleProto :=
  ⟨gs ("github.com/test/module"), gs ("v1.0.0"), [], [], gs ("h1"), 100⟩

/-- The same module under version `v1.1.0` and a later timestamp. -/
def modB : ModuleProto :=
  ⟨gs ("github.com/test/module"), gs ("v1.1.0"), [], [], gs ("h2"), 200⟩

/-- A module record carrying timestamp 500. -/
def modT1 : ModuleProto := ⟨gs ("a/one"), gs ("v1.0.0"), [], [], gs ("h1"), 500⟩

/-- A different module record carrying the same timestamp 500. -/
def modT2 : ModuleProto := ⟨gs ("b/two"), gs ("v2.0.0"), [], [], gs ("h2"), 500⟩

/-! ## General lemmas about the bucket model -/

theorem bget_bput_self (k : List Char) (v : α) (l : List (List Char × α)) :
    bget k (bput k v l) = some v := by
  induction l with
  | nil => simp [bput, bget]
  | cons hd tl ih =>
    obtain ⟨k', v'⟩ := hd
    by_cases h : k = k'
    · simp [bput, bget, h]
    · by_cases h2 : goStrLt k k' = true
      · simp [bput, bget, h, h2]
      · simp [bput, bget, h, h2, ih]

theorem bget_bput_ne (k k' : List Char) (v : α) (l : List (List Char × α))
    (h : k ≠ k') : bget k (bput k' v l) = bget k l := by
  induction l with
  | nil => simp [bput, bget, h]
  | cons hd tl ih =>
    obtain ⟨k'', v''⟩ := hd
    by_cases h1 : k' = k''
    · subst h1
      simp [bput, bget, h]
    · by_cases h2 : goStrLt k' k'' = true
      · simp [bput, bget, h, h1, h2]
      · by_cases h3 : k = k''
        · simp [bput, bget, h1, h2, h3]
        · simp [bput, bget, h1, h2, h3, ih]

/-! ## Claim C1 -/

/-- Claim C1 (code bug): the spec (and the repository's own test
`TestModuleVersionUpdate`) requires that after upserting a second version of
the same module name the store holds exactly one modules entry and one
time-index entry for that name; the code keys the modules bucket by
`name@version` and never deletes the stale time-index entry, so both buckets
hold two entries and the old record is still present. -/
theorem claim_C1_upsert_keeps_stale_entries :
    (upsertModule (upsertModule emptyStorage modA) modB).modules.length = 2 ∧
      (upsertModule (upsertModule emptyStorage modA) modB).timeIndex.length = 2 ∧
      bget (moduleKey modA) (upsertModule (upsertModule emptyStorage modA) modB).modules
        = some modA ∧
      bget (pad20 100) (upsertModule (upsertModule emptyStorage modA) modB).timeIndex
        = some (moduleKey modA) :=
  ⟨rfl, rfl, rfl, rfl⟩

/-! ## Claim C2 -/

/-- Claim C2 (code bug): with a nonempty probed version list, the resolver is
specified (and the README's version pinning requires) to resolve a non-latest
token to the token itself; the code's `pickVersion` returns the head of the
list regardless, and no UnknownVersion check exists.  Here the user pins
`v0.9.0`, which is present in the list, yet resolution yields `v1.0.0`. -/
theorem claim_C2_pinned_version_ignored :
    resolveVersion (gs ("v0.9.0")) ⟨gs ("v1.0.0"), [gs ("v1.0.0"), gs ("v0.9.0")]⟩
        = gs ("v1.0.0") ∧
      gs ("v1.0.0") ≠ gs ("v0.9.0") ∧
      gs ("v0.9.0") ∈ [gs ("v1.0.0"), gs ("v0.9.0")] :=
  ⟨rfl, by decide, by decide⟩

/-! ## Claim C3 -/

/-- Claim C3 (code bug): the version-order rule says the semantic comparator
decides whenever it yields an ordering, with byte-wise comparison only as a
fallback; the code compares byte-wise always.  At `v1.10.0` versus `v1.9.0`
the semantic order says strictly newer while the code says not newer. -/
theorem claim_C3_semantic_order_not_used :
    isNewerVersion (gs ("v1.10.0")) (gs ("v1.9.0")) = false ∧
      specIsNewerVersion (gs ("v1.10.0")) (gs ("v1.9.0")) = true :=
  ⟨rfl, rfl⟩

/-! ## Claim C4 -/

/-- Claim C4, counterexample: `normalizeModulePath` produces the empty path on
`"https://"` (and on `"/"`) instead of failing with InvalidInput — indeed it
has no failure path at all. -/
theorem claim_C4_cex_empty_output :
    normalizeModulePath (gs ("https://")) = [] ∧
      normalizeModulePath (gs ("/")) = [] :=
  ⟨rfl, rfl⟩

/-! ## Lemmas about trimming and scanning -/

theorem dropLead_head_ne (l : List Char) : (dropLead l).head? ≠ some '/' := by
  induction l with
  | nil => simp [dropLead]
  | cons c cs ih =>
    by_cases h : c = '/'
    · simpa [dropLead, h] using ih
    · simp [dropLead, h]

theorem dropLead_eq_of_head (l : List Char) (h : l.head? ≠ some '/') :
    dropLead l = l := by
  cases l with
  | nil => rfl
  | cons c cs =>
    have : c ≠ '/' := by simpa using h
    simp [dropLead, this]

theorem dropLead_getLast (l : List Char) (h : dropLead l ≠ []) :
    (dropLead l).getLast? = l.getLast? := by
  induction l with
  | nil => simp [dropLead] at h
  | cons c cs ih =>
    by_cases hc : c = '/'
    · have hd : dropLead (c :: cs) = dropLead cs := by simp [dropLead, hc]
      rw [hd] at h ⊢
      have hcs : cs ≠ [] := by
        intro e
        rw [e] at h
        simp [dropLead] at h
      rw [ih h]
      cases cs with
      | nil => exact absurd rfl hcs
      | cons d ds => simp [List.getLast?]
    · simp [dropLead, hc]

theorem trimEnd_getLast_ne (s : List Char) : (trimEnd s).getLast? ≠ some '/' := by
  unfold trimEnd
  rw [List.getLast?_reverse]
  exact dropLead_head_ne s.reverse

theorem trimEnd_eq_of_getLast (s : List Char) (h : s.getLast? ≠ some '/') :
    trimEnd s = s := by
  unfold trimEnd
  rw [dropLead_eq_of_head _ (by rwa [List.head?_reverse]), List.reverse_reverse]

theorem trimSlash_getLast_ne (s : List Char) : (trimSlash s).getLast? ≠ some '/' :=
  trimEnd_getLast_ne (dropLead s)

theorem trimSlash_head_ne (s : List Char) : (trimSlash s).head? ≠ some '/' := by
  unfold trimSlash trimEnd
  rw [List.head?_reverse]
  by_cases h : dropLead (dropLead s).reverse = []
  · simp [h]
  · rw [dropLead_getLast _ h, List.getLast?_reverse]
    exact dropLead_head_ne s

theorem trimSlash_idem (s : List Char) : trimSlash (trimSlash s) = trimSlash s := by
  show trimEnd (dropLead (trimSlash s)) = trimSlash s
  rw [dropLead_eq_of_head _ (trimSlash_head_ne s),
    trimEnd_eq_of_getLast _ (trimSlash_getLast_ne s)]

theorem removeAllF_of_not_hasSub (pat : List Char) :
    ∀ (fuel : Nat) (s : List Char), hasSub pat s = false → removeAllF pat fuel s = s := by
  intro fuel
  induction fuel with
  | zero => intro s _; cases s <;> rfl
  | succ n ih =>
    intro s hs
    cases s with
    | nil => rfl
    | cons c cs =>
      have hsub : hasSub pat (c :: cs) = (hasPre pat (c :: cs) || hasSub pat cs) := rfl
      rw [hsub] at hs
      have h1 : hasPre pat (c :: cs) = false := by
        cases hp : hasPre pat (c :: cs) <;> simp [hp] at hs ⊢
      have h2 : hasSub pat cs = false := by
        cases hp : hasSub pat cs <;> simp [hp] at hs ⊢
      by_cases hz : pat.length = 0
      · simp [removeAllF, hz]
      · simp [removeAllF, hz, h1, ih cs h2]

theorem removeAll_of_not_hasSub (pat s : List Char) (h : hasSub pat s = false) :
    removeAll pat s = s :=
  removeAllF_of_not_hasSub pat s.length s h

theorem cutFirstPre_of_all_fail (s : List Char) :
    ∀ ps : List (List Char), ps.all (fun p => ! hasPre p s) = true →
      cutFirstPre ps s = s := by
  intro ps
  induction ps with
  | nil => intro _; rfl
  | cons p pr ih =>
    intro h
    rw [List.all_cons, Bool.and_eq_true] at h
    have hp : hasPre p s = false := by simpa using h.1
    simp [cutFirstPre, hp, ih h.2]

theorem normalize_fix_of_stable (s : List Char) (hstable : normStable s = true)
    (htrim : trimSlash s = s) : normalizeModulePath s = s := by
  unfold normStable at hstable
  rw [Bool.and_eq_true, Bool.and_eq_true] at hstable
  obtain ⟨⟨h1, h2⟩, h3⟩ := hstable
  have hcut : cutFirstPre stripList s = s := cutFirstPre_of_all_fail s stripList h1
  have hcolon : (containsChar s ':' && containsChar s '@') = false := by
    cases hx : (containsChar s ':' && containsChar s '@') <;> simp [hx] at h2 ⊢
  have hgit : hasSub (gs (".git")) s = false := by
    cases hx : hasSub (gs (".git")) s <;> simp [hx] at h3 ⊢
  unfold normalizeModulePath collapseSshStyle
  rw [hcut, hcolon]
  simp only [Bool.false_eq_true, if_false]
  rw [removeAll_of_not_hasSub _ _ hgit, htrim]

/-! ## Claim C4, amended -/

/-- Claim C4 as amended: `normalizeModulePath` is a total function with no
failure path.  When stripping leaves nothing (such as on `"https://"` or
`"/"`) it returns the empty path rather than failing, and for every input the
output carries no leading or trailing slash. -/
theorem claim_C4_amended_total_never_fails (input : List Char) :
    normalizeModulePath (gs ("https://")) = [] ∧
      normalizeModulePath (gs ("/")) = [] ∧
      ((normalizeModulePath input).head? == some '/') = false ∧
      ((normalizeModulePath input).getLast? == some '/') = false := by
  refine ⟨rfl, rfl, ?_, ?_⟩
  · exact beq_eq_false_iff_ne.mpr (trimSlash_head_ne _)
  · exact beq_eq_false_iff_ne.mpr (trimSlash_getLast_ne _)

/-! ## Claim C7, counterexample -/

/-- Claim C7, counterexample: normalization is not idempotent.  Stripping the
scheme of `"https://https://x"` exposes a second strippable scheme, so a
second application strips again. -/
theorem claim_C7_cex_not_idempotent :
    normalizeModulePath (normalizeModulePath (gs ("https://https://x")))
      ≠ normalizeModulePath (gs ("https://https://x")) := by
  decide

/-! ## Claim C5, counterexample -/

/-- Claim C5, counterexample: the phase-1 prefix walk is not bounded by 5
probe iterations — with every probe failing on a path of five slashes it runs
the version probe 6 times (one initial probe plus 5 segment drops). -/
theorem claim_C5_cex_six_probes :
    (phase1 (fun _ => none) (gs ("a/b/c/d/e/f"))).probes = 6 := by
  decide

/-! ## Claim C7, amended -/

/-- Claim C7 as amended: normalization is idempotent on every input whose
normal form is stable — it does not begin with a strippable scheme or user
marker, does not contain both `':'` and `'@'`, and contains no `".git"`
occurrence.  (The counterexample shows the restriction is necessary: a normal
form beginning with a second strippable scheme is stripped again.) -/
theorem claim_C7_amended_idempotent_on_stable (p : List Char)
    (h : normStable (normalizeModulePath p) = true) :
    normalizeModulePath (normalizeModulePath p) = normalizeModulePath p := by
  have htrim : trimSlash (normalizeModulePath p) = normalizeModulePath p := by
    unfold normalizeModulePath
    exact trimSlash_idem _
  exact normalize_fix_of_stable _ h htrim

/-- Witness for the amended claim C7, at the normal form of a real module
URL. -/
theorem claim_C7_amended_witness :
    normStable (normalizeModulePath (gs ("https://github.com/inovacc/ksuid"))) = true ∧
      normalizeModulePath (normalizeModulePath (gs ("https://github.com/inovacc/ksuid")))
        = normalizeModulePath (gs ("https://github.com/inovacc/ksuid")) :=
  ⟨by decide, claim_C7_amended_idempotent_on_stable _ (by decide)⟩

/-! ## Claim C5, amended -/

theorem phase1Walk_probes_le (probe : List Char → Option ListRespM) :
    ∀ (fuel : Nat) (module : List Char),
      (phase1Walk probe fuel module).probes ≤ fuel + 1 := by
  intro fuel
  induction fuel with
  | zero =>
    intro module
    unfold phase1Walk
    cases probeStep probe module with
    | some lr => exact Nat.le_refl 1
    | none =>
      cases cutAtLastSlash module with
      | none => exact Nat.le_refl 1
      | some shorter => exact Nat.le_refl 1
  | succ n ih =>
    intro module
    unfold phase1Walk
    cases probeStep probe module with
    | some lr => exact Nat.le_add_left 1 (n + 1)
    | none =>
      cases cutAtLastSlash module with
      | none => exact Nat.le_add_left 1 (n + 1)
      | some shorter =>
        simpa using Nat.add_le_add_right (ih shorter) 1

/-- Claim C5 as amended: the prefix walk runs the version probe at most 6
times (one initial probe plus up to `maxAttempts = 5` segment drops), so the
whole resolution runs at most 7 probes (one more on a discovered CLI path);
and when the walk exhausts with the phase-2 gate closed (more than 2 slashes
and neither `/cmd/` nor `/cli/` in the original path), the discoverer is
never consulted — the outcome is the same for every discovery oracle. -/
theorem claim_C5_amended_walk_bounds (probe : List Char → Option ListRespM)
    (discover : List Char → Option (List (List Char))) (module : List Char) :
    (phase1 probe module).probes ≤ 6 ∧
      (fetchModuleVersions probe discover module).2 ≤ 7 ∧
      ((phase1 probe module).found = none → phase2Gate module = false →
        ∀ discover2, fetchModuleVersions probe discover module
          = fetchModuleVersions probe discover2 module) := by
  have hw : (phase1 probe module).probes ≤ 6 := phase1Walk_probes_le probe 5 module
  refine ⟨hw, ?_, ?_⟩
  · unfold fetchModuleVersions phase2Run
    cases hf : (phase1 probe module).found with
    | some r => simp only; omega
    | none =>
      by_cases hg : phase2Gate module = true
      · simp only [hg, if_true]
        cases discover module with
        | none => simp only; omega
        | some discovered =>
          cases discovered with
          | nil => simp only; omega
          | cons d rest =>
            cases hps : probeStep probe d <;> simp only [hps] <;> omega
      · have hg' : phase2Gate module = false := by
          cases hx : phase2Gate module <;> simp [hx] at hg ⊢
        simp only [hg', Bool.false_eq_true, if_false]
        omega
  · intro hnone hgate discover2
    unfold fetchModuleVersions phase2Run
    rw [hnone, hgate]
    simp

/-- Witness for the amended claim C5: with every probe failing on a deep path
that neither has few slashes nor mentions `/cmd/` or `/cli/`, the resolution
outcome is independent of the discovery oracle. -/
theorem claim_C5_amended_witness :
    fetchModuleVersions (fun _ => none) (fun _ => none) (gs ("a/b/c/d/e/f"))
      = fetchModuleVersions (fun _ => none) (fun _ => some [gs ("x/cmd/y")])
          (gs ("a/b/c/d/e/f")) :=
  (claim_C5_amended_walk_bounds (fun _ => none) (fun _ => none)
      (gs ("a/b/c/d/e/f"))).2.2 (by decide) (by decide) _

/-! ## Claim C6 -/

theorem equalIgnoreCase_iff (a : List Char) :
    ∀ b : List Char, equalIgnoreCase a b = true ↔ a.map lowerChar = b.map lowerChar := by
  induction a with
  | nil =>
    intro b
    cases b <;> simp [equalIgnoreCase]
  | cons x xs ih =>
    intro b
    cases b with
    | nil => simp [equalIgnoreCase]
    | cons y ys => simp [equalIgnoreCase, Bool.and_eq_true, ih ys]

/-- Claim C6: `ListModules` first applies the (optional, nonempty) name
filter, reports the filtered count as `totalCount`, and only then paginates:
the page is exactly `drop offset` then `take limit` of the filtered list,
where `limit = 0` takes everything (so an offset past the end yields the
empty page).  The filter's case folding touches only ASCII letters: two
strings are `equalIgnoreCase`-equal exactly when their `lowerChar` images
agree byte-for-byte, `lowerChar` moves only `'A'..'Z'`, and non-ASCII bytes
(as in `"é"` versus `"É"`) match only when identical. -/
theorem claim_C6_filter_then_paginate (mods : List ModuleProto)
    (limit offset : Nat) (filterStr : List Char) :
    (listModulesHandler mods limit offset filterStr).2
        = (mods.filter fun m => nameFilterPred filterStr m.name).length ∧
      (listModulesHandler mods limit offset filterStr).1
        = ((mods.filter fun m => nameFilterPred filterStr m.name).drop offset).take
            (if limit = 0
              then (mods.filter fun m => nameFilterPred filterStr m.name).length
              else limit) ∧
      (∀ a b : List Char, equalIgnoreCase a b = true ↔ a.map lowerChar = b.map lowerChar) ∧
      (∀ c : Char, lowerChar c = c ∨ ('A' ≤ c ∧ c ≤ 'Z')) ∧
      containsIgnoreCase (gs ("FooBar")) (gs ("OBA")) = true ∧
      equalIgnoreCase (gs ("é")) (gs ("É")) = false := by
  refine ⟨rfl, ?_, equalIgnoreCase_iff, ?_, by decide, by decide⟩
  · show (if offset > (mods.filter fun m => nameFilterPred filterStr m.name).length
        then []
        else
          if limit > 0 ∧
              limit < ((mods.filter fun m => nameFilterPred filterStr m.name).drop offset).length
            then ((mods.filter fun m => nameFilterPred filterStr m.name).drop offset).take limit
            else (mods.filter fun m => nameFilterPred filterStr m.name).drop offset)
      = _
    set l := mods.filter fun m => nameFilterPred filterStr m.name with hl
    by_cases ho : offset > l.length
    · rw [if_pos ho, List.drop_eq_nil_of_le (Nat.le_of_lt ho)]
      simp
    · rw [if_neg ho]
      by_cases hz : limit = 0
      · have : ¬ (limit > 0 ∧ limit < (l.drop offset).length) := by omega
        rw [if_neg this, hz, if_pos rfl]
        exact (List.take_of_length_le (by simp [List.length_drop])).symm
      · rw [if_neg hz]
        by_cases hlt : limit < (l.drop offset).length
        · rw [if_pos ⟨Nat.pos_of_ne_zero hz, hlt⟩]
        · rw [if_neg (by omega)]
          exact (List.take_of_length_le (by omega)).symm
  · intro c
    by_cases h : 'A' ≤ c ∧ c ≤ 'Z'
    · exact Or.inr h
    · exact Or.inl (by simp [lowerChar, h])

/-! ## Claim C8 -/

theorem isNewer_irrefl (v : List Char) : isNewerVersion v v = false := by
  simp [isNewerVersion]

theorem isNewer_ne {v p : List Char} (h : isNewerVersion v p = true) : v ≠ p := by
  intro e
  subst e
  rw [isNewer_irrefl] at h
  exact Bool.false_ne_true h

/-- Claim C8, counterexample: a module installed as `1.0.0` and re-resolved to
`v1.0.0` is not strictly newer under the version-order rule (the strings are
equal after `'v'`-normalization), yet the sweep counts it in updates-found
because it compares the raw strings for mere inequality. -/
theorem claim_C8_cex_found_without_newer :
    (checkAndUpdate [((gs ("github.com/x/tool"), gs ("1.0.0")),
        ⟨some (gs ("v1.0.0")), true, true⟩)] false).updatesFound = 1 ∧
      isNewerVersion (gs ("v1.0.0")) (gs ("1.0.0")) = false :=
  ⟨rfl, rfl⟩

theorem checkModule_found_iff (name prev : List Char) (notifyOnly : Bool)
    (env : CheckEnv) :
    ((¬ (checkModule name prev notifyOnly env).errored = true) ∧
        (checkModule name prev notifyOnly env).newVersion
          ≠ (checkModule name prev notifyOnly env).previousVersion)
      ↔ foundSpec notifyOnly prev env = true := by
  obtain ⟨resolve, installOk, storeOk⟩ := env
  cases resolve with
  | none => simp [checkModule, foundSpec]
  | some v =>
    by_cases hn : isNewerVersion v prev = true
    · cases notifyOnly with
      | true => simp [checkModule, foundSpec, hn]
      | false =>
        cases installOk with
        | false => simp [checkModule, foundSpec, hn]
        | true =>
          cases storeOk with
          | false => simp [checkModule, foundSpec, hn]
          | true => simp [checkModule, foundSpec, hn, isNewer_ne hn]
    · have hn' : isNewerVersion v prev = false := by
        cases hx : isNewerVersion v prev <;> simp [hx] at hn ⊢
      simp [checkModule, foundSpec, hn']

theorem checkModule_applied_iff (name prev : List Char) (notifyOnly : Bool)
    (env : CheckEnv) :
    (((¬ (checkModule name prev notifyOnly env).errored = true) ∧
          (checkModule name prev notifyOnly env).newVersion
            ≠ (checkModule name prev notifyOnly env).previousVersion) ∧
        (checkModule name prev notifyOnly env).updated = true)
      ↔ appliedSpec notifyOnly prev env = true := by
  obtain ⟨resolve, installOk, storeOk⟩ := env
  cases resolve with
  | none => simp [checkModule, appliedSpec]
  | some v =>
    by_cases hn : isNewerVersion v prev = true
    · cases notifyOnly with
      | true => simp [checkModule, appliedSpec, hn]
      | false =>
        cases installOk with
        | false => simp [checkModule, appliedSpec, hn]
        | true =>
          cases storeOk with
          | false => simp [checkModule, appliedSpec, hn]
          | true => simp [checkModule, appliedSpec, hn, isNewer_ne hn]
    · have hn' : isNewerVersion v prev = false := by
        cases hx : isNewerVersion v prev <;> simp [hx] at hn ⊢
      simp [checkModule, appliedSpec, hn']

theorem checkFold (notifyOnly : Bool) :
    ∀ (l : List ((List Char × List Char) × CheckEnv)) (acc : CheckResult),
      (l.foldl (fun acc e => tallyResult acc (checkModule e.1.1 e.1.2 notifyOnly e.2))
          acc).updatesFound
          = acc.updatesFound + l.countP (fun e => foundSpec notifyOnly e.1.2 e.2) ∧
        (l.foldl (fun acc e => tallyResult acc (checkModule e.1.1 e.1.2 notifyOnly e.2))
            acc).updatesDone
          = acc.updatesDone + l.countP (fun e => appliedSpec notifyOnly e.1.2 e.2) ∧
        (l.foldl (fun acc e => tallyResult acc (checkModule e.1.1 e.1.2 notifyOnly e.2))
            acc).modulesCount
          = acc.modulesCount := by
  intro l
  induction l with
  | nil => intro acc; simp
  | cons e tl ih =>
    intro acc
    rw [List.foldl_cons, List.countP_cons, List.countP_cons]
    obtain ⟨ihf, ihd, ihc⟩ := ih (tallyResult acc (checkModule e.1.1 e.1.2 notifyOnly e.2))
    have hf1 : (tallyResult acc (checkModule e.1.1 e.1.2 notifyOnly e.2)).updatesFound
        = acc.updatesFound + (if foundSpec notifyOnly e.1.2 e.2 = true then 1 else 0) := by
      show acc.updatesFound + _ = acc.updatesFound + _
      rw [if_congr (checkModule_found_iff e.1.1 e.1.2 notifyOnly e.2) rfl rfl]
    have hd1 : (tallyResult acc (checkModule e.1.1 e.1.2 notifyOnly e.2)).updatesDone
        = acc.updatesDone + (if appliedSpec notifyOnly e.1.2 e.2 = true then 1 else 0) := by
      show acc.updatesDone + _ = acc.updatesDone + _
      rw [if_congr (checkModule_applied_iff e.1.1 e.1.2 notifyOnly e.2) rfl rfl]
    have hc1 : (tallyResult acc (checkModule e.1.1 e.1.2 notifyOnly e.2)).modulesCount
        = acc.modulesCount := rfl
    refine ⟨?_, ?_, ?_⟩
    · rw [ihf, hf1]
      by_cases h : foundSpec notifyOnly e.1.2 e.2 = true <;> simp [h] <;> omega
    · rw [ihd, hd1]
      by_cases h : appliedSpec notifyOnly e.1.2 e.2 = true <;> simp [h] <;> omega
    · rw [ihc, hc1]

/-- Claim C8 as amended: a checked module is counted in updates-found exactly
when its resolution succeeded, its resolved version string merely differs
from the installed one (even when it is not strictly newer, e.g. equal up to
`'v'`-prefix normalization), and no install/store error occurred; it is
counted in updates-applied exactly when a strictly `isNewerVersion`-newer
version was resolved with notify-only disabled and both the install and the
store succeeded. -/
theorem claim_C8_amended_found_counts_inequality
    (installed : List ((List Char × List Char) × CheckEnv)) (notifyOnly : Bool) :
    (checkAndUpdate installed notifyOnly).modulesCount = installed.length ∧
      (checkAndUpdate installed notifyOnly).updatesFound
        = installed.countP (fun e => foundSpec notifyOnly e.1.2 e.2) ∧
      (checkAndUpdate installed notifyOnly).updatesDone
        = installed.countP (fun e => appliedSpec notifyOnly e.1.2 e.2) := by
  obtain ⟨hf, hd, hc⟩ := checkFold notifyOnly installed ⟨installed.length, 0, 0, []⟩
  exact ⟨hc, by simpa using hf, by simpa using hd⟩

/-! ## Claim C9 -/

theorem foldl_max_le (c : Nat) :
    ∀ (l : List Nat) (b : Nat), b ≤ c → (∀ x ∈ l, x ≤ c) → l.foldl max b ≤ c := by
  intro l
  induction l with
  | nil => intro b hb _; simpa using hb
  | cons x xs ih =>
    intro b hb hl
    rw [List.foldl_cons]
    exact ih (max b x) (max_le hb (hl x (List.mem_cons_self x xs)))
      fun y hy => hl y (List.mem_cons_of_mem x hy)

theorem le_foldl_max : ∀ (l : List Nat) (b : Nat), b ≤ l.foldl max b := by
  intro l
  induction l with
  | nil => intro b; exact Nat.le_refl b
  | cons x xs ih =>
    intro b
    rw [List.foldl_cons]
    exact Nat.le_trans (Nat.le_max_left b x) (ih (max b x))

theorem mem_le_foldl_max :
    ∀ (l : List Nat) (b x : Nat), x ∈ l → x ≤ l.foldl max b := by
  intro l
  induction l with
  | nil => intro b y hy; simp at hy
  | cons y ys ih =>
    intro b x hx
    rw [List.foldl_cons]
    rcases List.mem_cons.mp hx with h | h
    · subst h
      exact Nat.le_trans (Nat.le_max_right b x) (le_foldl_max ys (max b x))
    · exact ih (max b y) x h

theorem lastActAt_le_self (stamps : List Nat) (t : Nat) :
    lastActAt stamps t ≤ t :=
  foldl_max_le t _ 0 (Nat.zero_le t)
    fun x hx => of_decide_eq_true (List.mem_filter.mp hx).2

theorem lastActAt_le_bound (stamps : List Nat) (t a : Nat)
    (h : ∀ s ∈ stamps, s ≤ a) : lastActAt stamps t ≤ a :=
  foldl_max_le a _ 0 (Nat.zero_le a)
    fun x hx => h x (List.mem_filter.mp hx).1

theorem lastActAt_mono (stamps : List Nat) (t t' : Nat) (h : t ≤ t') :
    lastActAt stamps t ≤ lastActAt stamps t' := by
  refine foldl_max_le _ _ 0 (Nat.zero_le _) fun x hx => ?_
  have hx' := List.mem_filter.mp hx
  exact mem_le_foldl_max _ 0 x
    (List.mem_filter.mpr ⟨hx'.1, by exact decide_eq_true (Nat.le_trans (of_decide_eq_true hx'.2) h)⟩)

/-- Claim C9: with `idle_timeout > 0` and every RPC stamping `last_activity`
before dispatch, the 30-second monitor (i) never fires at a wake-up whose
idle span is below the timeout, (ii) fires only when the server has been idle
at least the timeout, (iii) fires first at most `timeout + 30` seconds after
the last activity it observed, and (iv) does fire once activity ceases. -/
theorem claim_C9_idle_monitor_window (timeout : Nat) (stamps : List Nat)
    (htimeout : 0 < timeout) :
    (∀ k, tickTime k - lastActAt stamps (tickTime k) < timeout →
        idleFires timeout stamps k = false) ∧
      (∀ k, idleFires timeout stamps k = true →
        lastActAt stamps (tickTime k) + timeout ≤ tickTime k) ∧
      (∀ k, 1 ≤ k → idleFires timeout stamps k = true →
        (∀ j, 1 ≤ j → j < k → idleFires timeout stamps j = false) →
        tickTime k < lastActAt stamps (tickTime k) + timeout + 30) ∧
      (∀ a, (∀ s ∈ stamps, s ≤ a) →
        ∃ k, 1 ≤ k ∧ idleFires timeout stamps k = true) := by
  refine ⟨?_, ?_, ?_, ?_⟩
  · intro k h
    simp only [idleFires, decide_eq_false_iff_not, Nat.not_le]
    omega
  · intro k h
    have hle := lastActAt_le_self stamps (tickTime k)
    simp only [idleFires, decide_eq_true_eq] at h
    omega
  · intro k hk hfire hprev
    rcases Nat.lt_or_ge k 2 with hk2 | hk2
    · have : k = 1 := by omega
      subst this
      have := lastActAt_le_self stamps (tickTime 1)
      simp only [tickTime] at *
      omega
    · have hj : idleFires timeout stamps (k - 1) = false := hprev (k - 1) (by omega) (by omega)
      simp only [idleFires, decide_eq_false_iff_not, decide_eq_true_eq, Nat.not_le] at hj hfire ⊢
      have hmono : lastActAt stamps (tickTime (k - 1)) ≤ lastActAt stamps (tickTime k) :=
        lastActAt_mono stamps _ _ (by simp only [tickTime]; omega)
      have hself : lastActAt stamps (tickTime (k - 1)) ≤ tickTime (k - 1) :=
        lastActAt_le_self stamps _
      simp only [tickTime] at *
      omega
  · intro a hbound
    refine ⟨a + timeout, by omega, ?_⟩
    have hle : lastActAt stamps (tickTime (a + timeout)) ≤ a :=
      lastActAt_le_bound stamps _ a hbound
    simp only [tickTime] at hle
    simp only [idleFires, tickTime, decide_eq_true_eq]
    omega

/-- Witness for claim C9: with a 60-second timeout and a single RPC at second
10, the monitor does eventually stop the idle server. -/
theorem claim_C9_idle_monitor_witness :
    ∃ k, 1 ≤ k ∧ idleFires 60 [10] k = true :=
  (claim_C9_idle_monitor_window 60 [10] (by decide)).2.2.2 10 (by decide)

/-! ## Claim C10 -/

/-- Claim C10: the time index is keyed by the zero-padded timestamp alone, so
two modules upserted with equal `timestamp_unix_nano` values share one index
slot: the later upsert overwrites the earlier module's entry, the earlier
module no longer appears in `ListModules` (which walks only the time index
and skips dangling references), and deleting either module removes the shared
entry. -/
theorem claim_C10_shared_timestamp_slot (m1 m2 : ModuleProto)
    (hts : m1.timestampUnixNano = m2.timestampUnixNano)
    (hk : moduleKey m1 ≠ moduleKey m2) :
    (upsertModule (upsertModule emptyStorage m1) m2).timeIndex
        = [(pad20 m2.timestampUnixNano, moduleKey m2)] ∧
      listModulesStore (upsertModule (upsertModule emptyStorage m1) m2) = [m2] ∧
      (∃ s1, deleteModule (upsertModule (upsertModule emptyStorage m1) m2)
            m1.name m1.version = some s1 ∧ s1.timeIndex = []) ∧
      (∃ s2, deleteModule (upsertModule (upsertModule emptyStorage m1) m2)
            m2.name m2.version = some s2 ∧ s2.timeIndex = []) := by
  have hti : (upsertModule (upsertModule emptyStorage m1) m2).timeIndex
      = [(pad20 m2.timestampUnixNano, moduleKey m2)] := by
    simp only [upsertModule, updateTimeIndex, emptyStorage]
    rw [hts]
    simp [bput]
  have hmod : (upsertModule (upsertModule emptyStorage m1) m2).modules
      = bput (moduleKey m2) m2 (bput (moduleKey m1) m1 []) := by
    simp only [upsertModule, emptyStorage]
  have hget1 : bget (compositeKey m1.name m1.version)
      (upsertModule (upsertModule emptyStorage m1) m2).modules = some m1 := by
    rw [hmod]
    show bget (moduleKey m1) _ = some m1
    rw [bget_bput_ne _ _ _ _ hk, bget_bput_self]
  have hget2 : bget (compositeKey m2.name m2.version)
      (upsertModule (upsertModule emptyStorage m1) m2).modules = some m2 := by
    rw [hmod]
    exact bget_bput_self _ _ _
  refine ⟨hti, ?_, ?_, ?_⟩
  · unfold listModulesStore
    rw [hti]
    simp only [List.reverse_cons, List.reverse_nil, List.nil_append, List.filterMap_cons,
      List.filterMap_nil]
    rw [show moduleKey m2 = compositeKey m2.name m2.version from rfl, hget2]
  · have hdel1 : deleteModule (upsertModule (upsertModule emptyStorage m1) m2)
        m1.name m1.version
        = some
          { modules := bdel (compositeKey m1.name m1.version)
              (upsertModule (upsertModule emptyStorage m1) m2).modules
            dependencies := bdel m1.name
              (upsertModule (upsertModule emptyStorage m1) m2).dependencies
            timeIndex := deleteFromTimeIndex m1.timestampUnixNano
              (upsertModule (upsertModule emptyStorage m1) m2).timeIndex
            nameIndex := deleteFromNameIndex m1.name m1.version
              (upsertModule (upsertModule emptyStorage m1) m2).nameIndex } := by
      unfold deleteModule
      rw [hget1]
    refine ⟨_, hdel1, ?_⟩
    show deleteFromTimeIndex m1.timestampUnixNano
      (upsertModule (upsertModule emptyStorage m1) m2).timeIndex = []
    rw [hti, hts]
    simp [deleteFromTimeIndex, bdel]
  · have hdel2 : deleteModule (upsertModule (upsertModule emptyStorage m1) m2)
        m2.name m2.version
        = some
          { modules := bdel (compositeKey m2.name m2.version)
              (upsertModule (upsertModule emptyStorage m1) m2).modules
            dependencies := bdel m2.name
              (upsertModule (upsertModule emptyStorage m1) m2).dependencies
            timeIndex := deleteFromTimeIndex m2.timestampUnixNano
              (upsertModule (upsertModule emptyStorage m1) m2).timeIndex
            nameIndex := deleteFromNameIndex m2.name m2.version
              (upsertModule (upsertModule emptyStorage m1) m2).nameIndex } := by
      unfold deleteModule
      rw [hget2]
    refine ⟨_, hdel2, ?_⟩
    show deleteFromTimeIndex m2.timestampUnixNano
      (upsertModule (upsertModule emptyStorage m1) m2).timeIndex = []
    rw [hti]
    simp [deleteFromTimeIndex, bdel]

/-- Witness for claim C10, at two concrete records sharing timestamp 500. -/
theorem claim_C10_shared_timestamp_witness :
    (upsertModule (upsertModule emptyStorage modT1) modT2).timeIndex
        = [(pad20 modT2.timestampUnixNano, moduleKey modT2)] ∧
      listModulesStore (upsertModule (upsertModule emptyStorage modT1) modT2) = [modT2] ∧
      (∃ s1, deleteModule (upsertModule (upsertModule emptyStorage modT1) modT2)
            modT1.name modT1.version = some s1 ∧ s1.timeIndex = []) ∧
      (∃ s2, deleteModule (upsertModule (upsertModule emptyStorage modT1) modT2)
            modT2.name modT2.version = some s2 ∧ s2.timeIndex = []) :=
  claim_C10_shared_timestamp_slot modT1 modT2 rfl (by decide)

end Glix
